import Mathlib

/-!
Verification of `src/jsutils/suggestionList.js`: the `LexicalDistance`
engine (a case-insensitive restricted Damerau-Levenshtein distance with a
rolling three-row buffer) and the `suggestionList` ranking function.

Strings are modelled as `List Char`; JavaScript `toLowerCase` is modelled
as character-wise lowercasing.  The mutable three-row scratch buffer
`this._rows` is modelled as a function `ℕ → ℕ → ℕ` (row index, already
reduced mod 3, and column index); every array write becomes a function
update.  The fractional thresholds of the ranker are modelled in `ℚ`,
matching the non-truncating division of JavaScript numbers at these
magnitudes.  `Array.prototype.sort` with the comparator of the source
(distance difference, then `localeCompare`) is modelled as a sort by the
corresponding total order, with `localeCompare` taken as code-point
lexicographic comparison; since that comparator is a total order that
never returns 0 on distinct keys and the key set is duplicate-free, the
sorted output is the unique sorted permutation of the keys, independent
of `Object.keys` enumeration order.
-/

/-- Model of JavaScript `s.toLowerCase()` on our `List Char` strings. -/
def toLowerL (s : List Char) : List Char := s.map Char.toLower

/-- Model of the JavaScript character read `s[i]`; every read performed
by the algorithm is in range, so the fallback character is never
observable. -/
def charAt (s : List Char) (i : ℕ) : Char := s.getD i 'a'

/-- The three-row scratch buffer: `rs r j` is cell `j` of row `r`
(rows are always addressed at an index already reduced mod 3). -/
def Rows : Type := ℕ → ℕ → ℕ

/-- A single array write `rows[r][j] = v`. -/
def writeCell (rs : Rows) (r j v : ℕ) : Rows :=
  fun r' j' => if r' = r ∧ j' = j then v else rs r' j'

/-- `for (let j = 0; j <= bLength; j++) rows[0][j] = j;`
(`setRow0 rs n` performs the writes for `j = 0 .. n`). -/
def setRow0 (rs : Rows) : ℕ → Rows
  | 0 => writeCell rs 0 0 0
  | j + 1 => writeCell (setRow0 rs j) 0 (j + 1) (j + 1)

/-- The inner loop of `measure` for (1-based) row `i`:
`innerLoop a b i rs j` performs the body for columns `1 .. j`.
The body reads `upRow = rows[(i-1) % 3]`, `currentRow = rows[i % 3]`,
computes the deletion/insertion/substitution minimum, lowers it through
the transposition cell `rows[(i-2) % 3][col-2]` when the adjacent
characters match crosswise, and writes `currentRow[col]`. -/
def innerLoop (a b : List Char) (i : ℕ) (rs : Rows) : ℕ → Rows
  | 0 => rs
  | j + 1 =>
    let rs' := innerLoop a b i rs j
    let cost : ℕ := if charAt a (i - 1) = charAt b j then 0 else 1
    let cell : ℕ :=
      min (min (rs' ((i - 1) % 3) (j + 1) + 1) (rs' (i % 3) j + 1))
        (rs' ((i - 1) % 3) j + cost)
    let cell' : ℕ :=
      if 1 < i ∧ 0 < j ∧ charAt a (i - 1) = charAt b (j - 1) ∧
          charAt a (i - 2) = charAt b j then
        min cell (rs' ((i - 2) % 3) (j - 1) + 1)
      else cell
    writeCell rs' (i % 3) (j + 1) cell'

/-- The outer loop of `measure`: `outerLoop a b rs i` performs rows
`1 .. i`; each iteration writes `currentRow[0] = i` and then runs the
inner loop over all columns `1 .. b.length`. -/
def outerLoop (a b : List Char) (rs : Rows) : ℕ → Rows
  | 0 => rs
  | i + 1 =>
    let rs' := outerLoop a b rs i
    innerLoop a b (i + 1) (writeCell rs' ((i + 1) % 3) 0 (i + 1)) b.length

/-- The `LexicalDistance` engine: the fixed input string, its
precomputed lowercase form, and the mutable scratch rows. -/
structure LexicalDistance where
  input : List Char
  inputLowerCase : List Char
  rows : Rows

/-- The constructor: stores the input, its lowercase form, and three
zero-filled rows. -/
def LexicalDistance.make (input : List Char) : LexicalDistance :=
  { input := input, inputLowerCase := toLowerL input, rows := fun _ _ => 0 }

/-- `measure(option)`: returns the distance together with the engine as
left after the call (the scratch rows may have been overwritten). -/
def LexicalDistance.measure (self : LexicalDistance) (option : List Char) :
    ℕ × LexicalDistance :=
  if self.input = option then (0, self)
  else
    let optionLowerCase := toLowerL option
    if self.inputLowerCase = optionLowerCase then (1, self)
    else
      let a := optionLowerCase
      let b := self.inputLowerCase
      let rs0 := setRow0 self.rows b.length
      let rsF := outerLoop a b rs0 a.length
      (rsF (a.length % 3) b.length, { self with rows := rsF })

/-- The conceptual full DP matrix of the optimal-string-alignment
(restricted Damerau-Levenshtein) recurrence that the rolling buffer
implements: `osaM a b i j` is the distance between the first `i`
characters of `a` and the first `j` characters of `b`. -/
def osaM (a b : List Char) : ℕ → ℕ → ℕ
  | 0, j => j
  | i + 1, 0 => i + 1
  | i + 1, j + 1 =>
    let cost : ℕ := if charAt a i = charAt b j then 0 else 1
    let cell : ℕ :=
      min (min (osaM a b i (j + 1) + 1) (osaM a b (i + 1) j + 1))
        (osaM a b i j + cost)
    if 0 < i ∧ 0 < j ∧ charAt a i = charAt b (j - 1) ∧
        charAt a (i - 1) = charAt b j then
      min cell (osaM a b (i - 1) (j - 1) + 1)
    else cell
termination_by i j => i + j

/-- The optimal-string-alignment distance between two whole strings. -/
def osa (a b : List Char) : ℕ := osaM a b a.length b.length

/-- Pure characterisation of `measure` (proved equal to the stateful
implementation below): 0 on exact equality, 1 on a pure case change,
otherwise the OSA distance of the lowercased strings. -/
def measureSpec (input option : List Char) : ℕ :=
  if input = option then 0
  else if toLowerL input = toLowerL option then 1
  else osa (toLowerL option) (toLowerL input)

/-- Helper for `lev`: given `f = lev cs`, computes `lev (c :: cs)` by
structural recursion on the second string. -/
def levCons (c : Char) (f : List Char → ℕ) : List Char → ℕ
  | [] => f [] + 1
  | d :: ds =>
    min (min (f (d :: ds) + 1) (levCons c f ds + 1))
      (f ds + if c = d then 0 else 1)

/-- Plain Levenshtein distance (insertion, deletion, substitution only);
used to state the spec sentences contrasting `measure` with naive
Levenshtein. -/
def lev : List Char → List Char → ℕ
  | [], b => b.length
  | c :: cs, b => levCons c (lev cs) b

/-- A single edit in the sense of the spec's glossary: insertion,
deletion or substitution of one character, or a transposition of two
adjacent characters. -/
inductive EditStep : List Char → List Char → Prop where
  | ins (pre suf : List Char) (c : Char) :
      EditStep (pre ++ suf) (pre ++ c :: suf)
  | del (pre suf : List Char) (c : Char) :
      EditStep (pre ++ c :: suf) (pre ++ suf)
  | subst (pre suf : List Char) (c d : Char) :
      EditStep (pre ++ c :: suf) (pre ++ d :: suf)
  | swap (pre suf : List Char) (c d : Char) :
      EditStep (pre ++ c :: d :: suf) (pre ++ d :: c :: suf)

/-- `EditSeq n s t`: `t` is reachable from `s` in exactly `n` edits.
The minimum number of edits from `s` to `t` is the least such `n`. -/
def EditSeq : ℕ → List Char → List Char → Prop
  | 0, s, t => s = t
  | n + 1, s, t => ∃ u, EditStep s u ∧ EditSeq n u t

/-- The association map `optionsByDistance`: assignment to an existing
key updates its value in place, a new key is appended (JavaScript object
key order). -/
def updateAssoc (m : List (List Char × ℕ)) (k : List Char) (v : ℕ) :
    List (List Char × ℕ) :=
  match m with
  | [] => [(k, v)]
  | (k', v') :: rest =>
    if k' = k then (k', v) :: rest else (k', v') :: updateAssoc rest k v

/-- `optionsByDistance[x]` (0 when absent; only ever read on present keys,
mirroring the source's comparator reading recorded distances). -/
def lookupD (m : List (List Char × ℕ)) (x : List Char) : ℕ :=
  match m with
  | [] => 0
  | (k, v) :: rest => if k = x then v else lookupD rest x

/-- The sort comparator of the source, as a total order: ascending
recorded distance, ties broken by ascending lexical comparison
(`localeCompare` modelled as code-point lexicographic order). -/
def jsLe (m : List (List Char × ℕ)) (x y : List Char) : Prop :=
  lookupD m x < lookupD m y ∨ (lookupD m x = lookupD m y ∧ x ≤ y)

instance (m : List (List Char × ℕ)) : DecidableRel (jsLe m) := fun x y => by
  unfold jsLe; infer_instance

/-- The candidate loop of `suggestionList`: measure each option, compare
against `max(inputThreshold, option.length / 2, 1)`, and record survivors
in the map.  The engine is threaded through because `measure` mutates the
scratch rows. -/
def rankLoop (inputThreshold : ℚ) (acc : List (List Char × ℕ))
    (ld : LexicalDistance) : List (List Char) → List (List Char × ℕ) × LexicalDistance
  | [] => (acc, ld)
  | option :: rest =>
    let m := ld.measure option
    let threshold : ℚ := max (max inputThreshold ((option.length : ℚ) / 2)) 1
    let acc' := if (m.1 : ℚ) ≤ threshold then updateAssoc acc option m.1 else acc
    rankLoop inputThreshold acc' m.2 rest

/-- The map built by the candidate loop of `suggestionList` (the local
`optionsByDistance` object of the source; the engine's final scratch
state is discarded). -/
def optionsByDistance (input : List Char) (options : List (List Char)) :
    List (List Char × ℕ) :=
  (rankLoop ((input.length : ℚ) / 2) [] (LexicalDistance.make input) options).1

/-- `suggestionList(input, options)`: the keys of `optionsByDistance`,
sorted by the source's comparator. -/
def suggestionList (input : List Char) (options : List (List Char)) :
    List (List Char) :=
  List.insertionSort (jsLe (optionsByDistance input options))
    ((optionsByDistance input options).map Prod.fst)

/-! ### Basic lemmas about the scratch buffer -/

lemma writeCell_self (rs : Rows) (r j v : ℕ) : writeCell rs r j v r j = v := by
  simp [writeCell]

lemma writeCell_of_ne (rs : Rows) (r j v r' j' : ℕ) (h : r' ≠ r ∨ j' ≠ j) :
    writeCell rs r j v r' j' = rs r' j' := by
  unfold writeCell
  rw [if_neg]
  tauto

lemma setRow0_zero (rs : Rows) (n : ℕ) : ∀ j, j ≤ n → setRow0 rs n 0 j = j := by
  induction n with
  | zero =>
    intro j hj
    interval_cases j
    simp [setRow0, writeCell_self]
  | succ n ih =>
    intro j hj
    by_cases h : j = n + 1
    · subst h
      simp [setRow0, writeCell_self]
    · have hj' : j ≤ n := by omega
      simp only [setRow0]
      rw [writeCell_of_ne _ _ _ _ _ _ (Or.inr h)]
      exact ih j hj'

lemma setRow0_of_ne (rs : Rows) (n : ℕ) (r j : ℕ) (h : r ≠ 0) :
    setRow0 rs n r j = rs r j := by
  induction n with
  | zero => exact writeCell_of_ne _ _ _ _ _ _ (Or.inl h)
  | succ n ih =>
    simp only [setRow0]
    rw [writeCell_of_ne _ _ _ _ _ _ (Or.inl h)]
    exact ih

lemma innerLoop_frame (a b : List Char) (i : ℕ) (rs : Rows) (j r k : ℕ)
    (h : r ≠ i % 3) : innerLoop a b i rs j r k = rs r k := by
  induction j with
  | zero => rfl
  | succ j ih =>
    simp only [innerLoop]
    rw [writeCell_of_ne _ _ _ _ _ _ (Or.inl h)]
    exact ih

/-! ### The rolling buffer computes the OSA matrix -/

lemma osaM_zero_left (a b : List Char) (j : ℕ) : osaM a b 0 j = j := by
  simp [osaM]

lemma osaM_left_zero (a b : List Char) (i : ℕ) : osaM a b i 0 = i := by
  cases i <;> simp [osaM]

/-- The recurrence of `osaM` at an interior cell `(i, j)` with `i, j ≥ 1`,
phrased with the same index arithmetic the inner loop uses. -/
lemma osaM_cell (a b : List Char) (i j : ℕ) (hi : 1 ≤ i) (hj : 1 ≤ j) :
    osaM a b i j =
      if 1 < i ∧ 1 < j ∧ charAt a (i - 1) = charAt b (j - 2) ∧
          charAt a (i - 2) = charAt b (j - 1) then
        min
          (min (min (osaM a b (i - 1) j + 1) (osaM a b i (j - 1) + 1))
            (osaM a b (i - 1) (j - 1) +
              if charAt a (i - 1) = charAt b (j - 1) then 0 else 1))
          (osaM a b (i - 2) (j - 2) + 1)
      else
        min (min (osaM a b (i - 1) j + 1) (osaM a b i (j - 1) + 1))
          (osaM a b (i - 1) (j - 1) +
            if charAt a (i - 1) = charAt b (j - 1) then 0 else 1) := by
  obtain ⟨i', rfl⟩ : ∃ i', i = i' + 1 := ⟨i - 1, by omega⟩
  obtain ⟨j', rfl⟩ : ∃ j', j = j' + 1 := ⟨j - 1, by omega⟩
  simp only [osaM, Nat.add_sub_cancel,
    show i' + 1 - 2 = i' - 1 from by omega,
    show j' + 1 - 2 = j' - 1 from by omega,
    show (0 < i') = (1 < i' + 1) from propext (by omega),
    show (0 < j') = (1 < j' + 1) from propext (by omega)]

lemma innerLoop_correct (a b : List Char) (i N : ℕ) (rs : Rows) (hi : 1 ≤ i)
    (H1 : ∀ k, k ≤ N → rs ((i - 1) % 3) k = osaM a b (i - 1) k)
    (H2 : 1 < i → ∀ k, k ≤ N → rs ((i - 2) % 3) k = osaM a b (i - 2) k)
    (H3 : rs (i % 3) 0 = i) :
    ∀ j, j ≤ N → ∀ k, k ≤ j → innerLoop a b i rs j (i % 3) k = osaM a b i k := by
  intro j
  induction j with
  | zero =>
    intro _ k hk
    interval_cases k
    rw [osaM_left_zero]
    exact H3
  | succ j ih =>
    intro hjN k hk
    by_cases hkj : k = j + 1
    · subst hkj
      simp only [innerLoop]
      rw [writeCell_self]
      have r1 : innerLoop a b i rs j ((i - 1) % 3) (j + 1) =
          osaM a b (i - 1) (j + 1) := by
        rw [innerLoop_frame _ _ _ _ _ _ _ (by omega)]
        exact H1 _ (by omega)
      have r2 : innerLoop a b i rs j (i % 3) j = osaM a b i j :=
        ih (by omega) j le_rfl
      have r3 : innerLoop a b i rs j ((i - 1) % 3) j = osaM a b (i - 1) j := by
        rw [innerLoop_frame _ _ _ _ _ _ _ (by omega)]
        exact H1 _ (by omega)
      rw [r1, r2, r3]
      rw [osaM_cell a b i (j + 1) hi (by omega)]
      simp only [Nat.add_sub_cancel, show j + 1 - 2 = j - 1 from by omega,
        show (1 < j + 1) = (0 < j) from propext (by omega)]
      by_cases hguard : 1 < i ∧ 0 < j ∧ charAt a (i - 1) = charAt b (j - 1) ∧
          charAt a (i - 2) = charAt b j
      · have r4 : innerLoop a b i rs j ((i - 2) % 3) (j - 1) =
            osaM a b (i - 2) (j - 1) := by
          rw [innerLoop_frame _ _ _ _ _ _ _ (by omega)]
          exact H2 (by omega) _ (by omega)
        rw [if_pos hguard, if_pos hguard, r4]
      · rw [if_neg hguard, if_neg hguard]
    · have hk' : k ≤ j := by omega
      simp only [innerLoop]
      rw [writeCell_of_ne _ _ _ _ _ _ (Or.inr hkj)]
      exact ih (by omega) k hk'

lemma outerLoop_correct (a b : List Char) (rs0 : Rows)
    (H0 : ∀ k, k ≤ b.length → rs0 0 k = k) :
    ∀ i, (∀ k, k ≤ b.length → outerLoop a b rs0 i (i % 3) k = osaM a b i k) ∧
      (1 ≤ i → ∀ k, k ≤ b.length →
        outerLoop a b rs0 i ((i - 1) % 3) k = osaM a b (i - 1) k) := by
  intro i
  induction i with
  | zero =>
    refine ⟨fun k hk => ?_, fun h => absurd h (by omega)⟩
    rw [osaM_zero_left]
    exact H0 k hk
  | succ i ih =>
    have key : ∀ k, k ≤ b.length →
        outerLoop a b rs0 (i + 1) ((i + 1) % 3) k = osaM a b (i + 1) k := by
      intro k hk
      simp only [outerLoop]
      refine innerLoop_correct a b (i + 1) b.length _ (by omega) ?_ ?_ ?_
        b.length le_rfl k hk
      · intro k' hk'
        rw [Nat.add_sub_cancel, writeCell_of_ne _ _ _ _ _ _ (Or.inl (by omega))]
        exact ih.1 k' hk'
      · intro hi1 k' hk'
        rw [show i + 1 - 2 = i - 1 by omega,
          writeCell_of_ne _ _ _ _ _ _ (Or.inl (by omega))]
        exact ih.2 (by omega) k' hk'
      · exact writeCell_self _ _ _ _
    refine ⟨key, fun _ k hk => ?_⟩
    simp only [outerLoop, Nat.add_sub_cancel]
    rw [innerLoop_frame _ _ _ _ _ _ _ (by omega),
      writeCell_of_ne _ _ _ _ _ _ (Or.inl (by omega))]
    exact ih.1 k hk

/-- The DP section of `measure` computes `osa`, whatever the initial
contents of the scratch buffer. -/
lemma measureDP_eq_osa (a b : List Char) (rs : Rows) :
    outerLoop a b (setRow0 rs b.length) a.length (a.length % 3) b.length =
      osa a b := by
  exact (outerLoop_correct a b _ (fun k hk => setRow0_zero rs _ k hk) a.length).1
    b.length le_rfl

/-- `measure` agrees with its pure characterisation `measureSpec` for any
engine whose cached lowercase form is consistent with its input — in
particular for any initial or previously-used scratch buffer. -/
lemma measure_eq_measureSpec (ld : LexicalDistance) (option : List Char)
    (h : ld.inputLowerCase = toLowerL ld.input) :
    (ld.measure option).1 = measureSpec ld.input option := by
  unfold LexicalDistance.measure measureSpec
  rw [h]
  by_cases h1 : ld.input = option
  · simp [h1]
  · rw [if_neg h1, if_neg h1]
    by_cases h2 : toLowerL ld.input = toLowerL option
    · simp [h2]
    · simp only [if_neg h2]
      exact measureDP_eq_osa _ _ _

/-! ### Arithmetic properties of the OSA matrix -/

lemma osaM_le_max_aux (a b : List Char) :
    ∀ s i j, i + j ≤ s → osaM a b i j ≤ max i j := by
  intro s
  induction s with
  | zero =>
    intro i j h
    obtain ⟨rfl, rfl⟩ : i = 0 ∧ j = 0 := by omega
    simp [osaM_zero_left]
  | succ s ih =>
    intro i j h
    match i, j with
    | 0, j => rw [osaM_zero_left]; omega
    | i + 1, 0 => rw [osaM_left_zero]; omega
    | i + 1, j + 1 =>
      have h3 : osaM a b i j ≤ max i j := ih i j (by omega)
      have hc : (if charAt a i = charAt b j then 0 else 1) ≤ 1 := by
        split <;> omega
      simp only [osaM]
      split <;> omega

lemma osaM_symm_aux (a b : List Char) :
    ∀ s i j, i + j ≤ s → osaM a b i j = osaM b a j i := by
  intro s
  induction s with
  | zero =>
    intro i j h
    obtain ⟨rfl, rfl⟩ : i = 0 ∧ j = 0 := by omega
    rw [osaM_zero_left, osaM_zero_left]
  | succ s ih =>
    intro i j h
    match i, j with
    | 0, j => rw [osaM_zero_left, osaM_left_zero]
    | i + 1, 0 => rw [osaM_left_zero, osaM_zero_left]
    | i + 1, j + 1 =>
      have e1 : osaM a b i (j + 1) = osaM b a (j + 1) i := ih i (j + 1) (by omega)
      have e2 : osaM a b (i + 1) j = osaM b a j (i + 1) := ih (i + 1) j (by omega)
      have e3 : osaM a b i j = osaM b a j i := ih i j (by omega)
      have e4 : osaM a b (i - 1) (j - 1) = osaM b a (j - 1) (i - 1) :=
        ih (i - 1) (j - 1) (by omega)
      simp only [osaM]
      rw [e1, e2, e3, e4]
      have hcost : (if charAt a i = charAt b j then 0 else 1) =
          (if charAt b j = charAt a i then (0 : ℕ) else 1) := by
        by_cases hch : charAt a i = charAt b j
        · have hch' : charAt b j = charAt a i := hch.symm
          rw [if_pos hch, if_pos hch']
        · have hch' : ¬(charAt b j = charAt a i) := fun h => hch h.symm
          rw [if_neg hch, if_neg hch']
      rw [hcost]
      by_cases hg : 0 < i ∧ 0 < j ∧ charAt a i = charAt b (j - 1) ∧
          charAt a (i - 1) = charAt b j
      · have hg' : 0 < j ∧ 0 < i ∧ charAt b j = charAt a (i - 1) ∧
            charAt b (j - 1) = charAt a i :=
          ⟨hg.2.1, hg.1, hg.2.2.2.symm, hg.2.2.1.symm⟩
        rw [if_pos hg, if_pos hg']
        rw [min_comm (osaM b a (j + 1) i + 1) (osaM b a j (i + 1) + 1)]
      · have hg' : ¬(0 < j ∧ 0 < i ∧ charAt b j = charAt a (i - 1) ∧
            charAt b (j - 1) = charAt a i) := fun hc =>
          hg ⟨hc.2.1, hc.1, hc.2.2.2.symm, hc.2.2.1.symm⟩
        rw [if_neg hg, if_neg hg']
        rw [min_comm (osaM b a (j + 1) i + 1) (osaM b a j (i + 1) + 1)]

lemma osaM_eq_zero_aux (a b : List Char) :
    ∀ s i j, i + j ≤ s → osaM a b i j = 0 →
      i = j ∧ ∀ k, k < i → charAt a k = charAt b k := by
  intro s
  induction s with
  | zero =>
    intro i j h _
    obtain ⟨rfl, rfl⟩ : i = 0 ∧ j = 0 := by omega
    exact ⟨rfl, fun k hk => absurd hk (by omega)⟩
  | succ s ih =>
    intro i j h h0
    match i, j with
    | 0, j =>
      rw [osaM_zero_left] at h0
      exact ⟨h0.symm, fun k hk => absurd hk (by omega)⟩
    | i + 1, 0 =>
      rw [osaM_left_zero] at h0
      omega
    | i + 1, j + 1 =>
      simp only [osaM] at h0
      by_cases hch : charAt a i = charAt b j
      · rw [if_pos hch] at h0
        have hC : osaM a b i j = 0 := by
          split at h0 <;> omega
        obtain ⟨hij, hpre⟩ := ih i j (by omega) hC
        refine ⟨by omega, fun k hk => ?_⟩
        by_cases hki : k < i
        · exact hpre k hki
        · have hke : k = i := by omega
          subst hke
          subst hij
          exact hch
      · rw [if_neg hch] at h0
        split at h0 <;> omega

/-- The distance of the OSA matrix is bounded by the longer string-prefix
length. -/
lemma osa_le_max (a b : List Char) : osa a b ≤ max a.length b.length :=
  osaM_le_max_aux a b _ a.length b.length le_rfl

/-- The OSA distance is symmetric. -/
lemma osa_symm (a b : List Char) : osa a b = osa b a :=
  osaM_symm_aux a b _ a.length b.length le_rfl

/-- A zero OSA distance forces the strings to be equal. -/
lemma osa_eq_zero (a b : List Char) (h : osa a b = 0) : a = b := by
  obtain ⟨hlen, hpre⟩ := osaM_eq_zero_aux a b _ a.length b.length le_rfl h
  apply List.ext_getElem hlen
  intro k h1 h2
  have := hpre k h1
  rwa [charAt, charAt, List.getD_eq_getElem a 'a' h1,
    List.getD_eq_getElem b 'a' h2] at this

lemma toLowerL_length (s : List Char) : (toLowerL s).length = s.length :=
  List.length_map s Char.toLower

/-! ### Pure characterisation lemmas for `measureSpec` -/

lemma measureSpec_self (s : List Char) : measureSpec s s = 0 := by
  simp [measureSpec]

lemma measureSpec_eq_zero (inp opt : List Char) :
    measureSpec inp opt = 0 ↔ opt = inp := by
  constructor
  · intro h
    unfold measureSpec at h
    by_cases h1 : inp = opt
    · exact h1.symm
    · rw [if_neg h1] at h
      by_cases h2 : toLowerL inp = toLowerL opt
      · rw [if_pos h2] at h
        omega
      · rw [if_neg h2] at h
        exact absurd (osa_eq_zero _ _ h) (fun hc => h2 hc.symm)
  · intro h
    subst h
    exact measureSpec_self _

lemma measureSpec_symm (x y : List Char) : measureSpec x y = measureSpec y x := by
  unfold measureSpec
  by_cases h1 : x = y
  · subst h1
    rfl
  · have h1' : ¬(y = x) := fun h => h1 h.symm
    rw [if_neg h1, if_neg h1']
    by_cases h2 : toLowerL x = toLowerL y
    · have h2' : toLowerL y = toLowerL x := h2.symm
      rw [if_pos h2, if_pos h2']
    · have h2' : ¬(toLowerL y = toLowerL x) := fun h => h2 h.symm
      rw [if_neg h2, if_neg h2']
      exact osa_symm _ _

lemma measureSpec_le_max (x y : List Char) :
    measureSpec x y ≤ max x.length y.length := by
  unfold measureSpec
  by_cases h1 : x = y
  · simp [h1]
  · rw [if_neg h1]
    by_cases h2 : toLowerL x = toLowerL y
    · rw [if_pos h2]
      have hlen : x.length = y.length := by
        have := congrArg List.length h2
        rwa [toLowerL_length, toLowerL_length] at this
      have hpos : x ≠ [] := by
        intro hx
        subst hx
        exact h1 (List.length_eq_zero.mp hlen.symm).symm
      have : 0 < x.length := List.length_pos.mpr hpos
      omega
    · rw [if_neg h2]
      have := osa_le_max (toLowerL y) (toLowerL x)
      rwa [toLowerL_length, toLowerL_length, Nat.max_comm] at this

/-- `measure` never changes the `input` / `inputLowerCase` fields (it only
overwrites the scratch rows). -/
lemma measure_fields (ld : LexicalDistance) (option : List Char) :
    (ld.measure option).2.input = ld.input ∧
      (ld.measure option).2.inputLowerCase = ld.inputLowerCase := by
  unfold LexicalDistance.measure
  by_cases h1 : ld.input = option
  · simp [h1]
  · by_cases h2 : ld.inputLowerCase = toLowerL option
    · simp [h1, h2]
    · simp [h1, h2]

/-! ### The association map -/

lemma keys_updateAssoc (m : List (List Char × ℕ)) (k : List Char) (v : ℕ) :
    (updateAssoc m k v).map Prod.fst =
      if k ∈ m.map Prod.fst then m.map Prod.fst
      else m.map Prod.fst ++ [k] := by
  induction m with
  | nil => simp [updateAssoc]
  | cons p rest ih =>
    obtain ⟨k', v'⟩ := p
    by_cases h : k' = k
    · subst h
      simp [updateAssoc]
    · have h' : ¬(k = k') := fun hc => h hc.symm
      simp only [updateAssoc, if_neg h, List.map_cons, List.mem_cons, ih]
      by_cases hk : k ∈ rest.map Prod.fst
      · simp [hk, h']
      · simp [hk, h']

lemma mem_keys_updateAssoc (m : List (List Char × ℕ)) (k : List Char) (v : ℕ)
    (x : List Char) :
    x ∈ (updateAssoc m k v).map Prod.fst ↔ x ∈ m.map Prod.fst ∨ x = k := by
  rw [keys_updateAssoc]
  by_cases h : k ∈ m.map Prod.fst
  · rw [if_pos h]
    constructor
    · exact Or.inl
    · rintro (hx | rfl)
      · exact hx
      · exact h
  · rw [if_neg h]
    simp

lemma nodup_keys_updateAssoc (m : List (List Char × ℕ)) (k : List Char) (v : ℕ)
    (h : (m.map Prod.fst).Nodup) : ((updateAssoc m k v).map Prod.fst).Nodup := by
  rw [keys_updateAssoc]
  by_cases hk : k ∈ m.map Prod.fst
  · rwa [if_pos hk]
  · rw [if_neg hk]
    simp [List.nodup_append, h, hk]

lemma lookupD_updateAssoc_self (m : List (List Char × ℕ)) (k : List Char)
    (v : ℕ) : lookupD (updateAssoc m k v) k = v := by
  induction m with
  | nil => simp [updateAssoc, lookupD]
  | cons p rest ih =>
    obtain ⟨k', v'⟩ := p
    by_cases h : k' = k
    · subst h
      simp [updateAssoc, lookupD]
    · simp [updateAssoc, lookupD, h, ih]

lemma lookupD_updateAssoc_ne (m : List (List Char × ℕ)) (k : List Char) (v : ℕ)
    (x : List Char) (h : x ≠ k) :
    lookupD (updateAssoc m k v) x = lookupD m x := by
  induction m with
  | nil =>
    have h' : ¬(k = x) := fun hc => h hc.symm
    simp [updateAssoc, lookupD, h']
  | cons p rest ih =>
    obtain ⟨k', v'⟩ := p
    by_cases hk : k' = k
    · subst hk
      have h' : ¬(k' = x) := fun hc => h hc.symm
      simp [updateAssoc, lookupD, h']
    · simp only [updateAssoc, if_neg hk, lookupD]
      by_cases hx : k' = x
      · simp [hx]
      · simp [hx, ih]

/-! ### The comparator is a total order -/

instance jsLe_total (m : List (List Char × ℕ)) : IsTotal (List Char) (jsLe m) := by
  constructor
  intro x y
  unfold jsLe
  rcases Nat.lt_trichotomy (lookupD m x) (lookupD m y) with h | h | h
  · exact Or.inl (Or.inl h)
  · rcases le_total x y with hxy | hyx
    · exact Or.inl (Or.inr ⟨h, hxy⟩)
    · exact Or.inr (Or.inr ⟨h.symm, hyx⟩)
  · exact Or.inr (Or.inl h)

instance jsLe_trans (m : List (List Char × ℕ)) : IsTrans (List Char) (jsLe m) := by
  constructor
  intro x y z hxy hyz
  unfold jsLe at hxy hyz ⊢
  rcases hxy with h1 | ⟨h1, h1'⟩ <;> rcases hyz with h2 | ⟨h2, h2'⟩
  · exact Or.inl (lt_trans h1 h2)
  · exact Or.inl (by omega)
  · exact Or.inl (by omega)
  · exact Or.inr ⟨by omega, le_trans h1' h2'⟩

instance jsLe_antisymm (m : List (List Char × ℕ)) :
    IsAntisymm (List Char) (jsLe m) := by
  constructor
  intro x y hxy hyx
  unfold jsLe at hxy hyx
  rcases hxy with h1 | ⟨h1, h1'⟩ <;> rcases hyx with h2 | ⟨h2, h2'⟩
  · omega
  · omega
  · omega
  · exact le_antisymm h1' h2'

/-! ### Invariants of the candidate loop -/

lemma rankLoop_nil (inputThreshold : ℚ) (acc : List (List Char × ℕ))
    (ld : LexicalDistance) : rankLoop inputThreshold acc ld [] = (acc, ld) := rfl

lemma rankLoop_cons (inputThreshold : ℚ) (acc : List (List Char × ℕ))
    (ld : LexicalDistance) (o : List Char) (rest : List (List Char)) :
    rankLoop inputThreshold acc ld (o :: rest) =
      rankLoop inputThreshold
        (if (((ld.measure o).1 : ℕ) : ℚ) ≤
            max (max inputThreshold ((o.length : ℚ) / 2)) 1 then
          updateAssoc acc o (ld.measure o).1
        else acc)
        (ld.measure o).2 rest := rfl

lemma rankLoop_mem_keys (inputThreshold : ℚ) :
    ∀ (opts : List (List Char)) (acc : List (List Char × ℕ))
      (ld : LexicalDistance)
      (hld : ld.inputLowerCase = toLowerL ld.input) (x : List Char),
      x ∈ (rankLoop inputThreshold acc ld opts).1.map Prod.fst ↔
        x ∈ acc.map Prod.fst ∨ (x ∈ opts ∧
          ((measureSpec ld.input x : ℚ) ≤
            max (max inputThreshold ((x.length : ℚ) / 2)) 1)) := by
  intro opts
  induction opts with
  | nil =>
    intro acc ld hld x
    constructor
    · exact fun h => Or.inl h
    · rintro (h | ⟨h, _⟩)
      · exact h
      · exact absurd h (List.not_mem_nil x)
  | cons o rest ih =>
    intro acc ld hld x
    rw [rankLoop_cons]
    have hm1 : (ld.measure o).1 = measureSpec ld.input o :=
      measure_eq_measureSpec _ _ hld
    have hf := measure_fields ld o
    have hld' : (ld.measure o).2.inputLowerCase =
        toLowerL (ld.measure o).2.input := by
      rw [hf.1, hf.2, hld]
    rw [ih _ _ hld' x, hf.1]
    by_cases hpass : (((ld.measure o).1 : ℕ) : ℚ) ≤
        max (max inputThreshold ((o.length : ℚ) / 2)) 1
    · have hP : ((measureSpec ld.input o : ℕ) : ℚ) ≤
          max (max inputThreshold ((o.length : ℚ) / 2)) 1 := by
        rwa [hm1] at hpass
      rw [if_pos hpass]
      constructor
      · intro hmem
        rcases hmem with hacc' | ⟨hr, hp⟩
        · rcases (mem_keys_updateAssoc acc o _ x).mp hacc' with hacc | rfl
          · exact Or.inl hacc
          · exact Or.inr ⟨List.mem_cons_self _ _, hP⟩
        · exact Or.inr ⟨List.mem_cons_of_mem _ hr, hp⟩
      · rintro (hacc | ⟨ho, hp⟩)
        · exact Or.inl ((mem_keys_updateAssoc acc o _ x).mpr (Or.inl hacc))
        · rcases List.mem_cons.mp ho with rfl | hr
          · exact Or.inl ((mem_keys_updateAssoc acc _ _ _).mpr (Or.inr rfl))
          · exact Or.inr ⟨hr, hp⟩
    · have hP : ¬(((measureSpec ld.input o : ℕ) : ℚ) ≤
          max (max inputThreshold ((o.length : ℚ) / 2)) 1) := by
        rwa [hm1] at hpass
      rw [if_neg hpass]
      constructor
      · rintro (hacc | ⟨hr, hp⟩)
        · exact Or.inl hacc
        · exact Or.inr ⟨List.mem_cons_of_mem _ hr, hp⟩
      · rintro (hacc | ⟨ho, hp⟩)
        · exact Or.inl hacc
        · rcases List.mem_cons.mp ho with rfl | hr
          · exact absurd hp hP
          · exact Or.inr ⟨hr, hp⟩

lemma rankLoop_nodup_lookup (inputThreshold : ℚ) :
    ∀ (opts : List (List Char)) (acc : List (List Char × ℕ))
      (ld : LexicalDistance)
      (hld : ld.inputLowerCase = toLowerL ld.input)
      (hnd : (acc.map Prod.fst).Nodup)
      (hlk : ∀ x, x ∈ acc.map Prod.fst →
        lookupD acc x = measureSpec ld.input x),
      ((rankLoop inputThreshold acc ld opts).1.map Prod.fst).Nodup ∧
        (∀ x, x ∈ (rankLoop inputThreshold acc ld opts).1.map Prod.fst →
          lookupD (rankLoop inputThreshold acc ld opts).1 x =
            measureSpec ld.input x) := by
  intro opts
  induction opts with
  | nil =>
    intro acc ld hld hnd hlk
    exact ⟨hnd, hlk⟩
  | cons o rest ih =>
    intro acc ld hld hnd hlk
    rw [rankLoop_cons]
    have hm1 : (ld.measure o).1 = measureSpec ld.input o :=
      measure_eq_measureSpec _ _ hld
    have hf := measure_fields ld o
    have hld' : (ld.measure o).2.inputLowerCase =
        toLowerL (ld.measure o).2.input := by
      rw [hf.1, hf.2, hld]
    by_cases hpass : (((ld.measure o).1 : ℕ) : ℚ) ≤
        max (max inputThreshold ((o.length : ℚ) / 2)) 1
    · rw [if_pos hpass]
      have hres := ih (updateAssoc acc o (ld.measure o).1) _ hld'
        (nodup_keys_updateAssoc _ _ _ hnd)
        (fun x hx => by
          rcases eq_or_ne x o with rfl | hxo
          · rw [lookupD_updateAssoc_self, hf.1, hm1]
          · rw [lookupD_updateAssoc_ne _ _ _ _ hxo, hf.1]
            rcases (mem_keys_updateAssoc acc o _ x).mp hx with hacc | hxo'
            · exact hlk x hacc
            · exact absurd hxo' hxo)
      rw [hf.1] at hres
      exact hres
    · rw [if_neg hpass]
      have hres := ih acc _ hld' hnd
        (fun x hx => by rw [hf.1]; exact hlk x hx)
      rw [hf.1] at hres
      exact hres

/-! ### Characterisation of `suggestionList` -/

lemma mem_keys_optionsByDistance (input : List Char)
    (options : List (List Char)) (x : List Char) :
    x ∈ (optionsByDistance input options).map Prod.fst ↔
      x ∈ options ∧ ((measureSpec input x : ℚ) ≤
        max (max ((input.length : ℚ) / 2) ((x.length : ℚ) / 2)) 1) := by
  unfold optionsByDistance
  rw [rankLoop_mem_keys _ _ _ _ rfl x]
  simp [LexicalDistance.make]

lemma nodup_keys_optionsByDistance (input : List Char)
    (options : List (List Char)) :
    ((optionsByDistance input options).map Prod.fst).Nodup :=
  (rankLoop_nodup_lookup _ options [] _ rfl (by simp) (by simp [lookupD])).1

lemma lookupD_optionsByDistance (input : List Char)
    (options : List (List Char)) (x : List Char)
    (hx : x ∈ (optionsByDistance input options).map Prod.fst) :
    lookupD (optionsByDistance input options) x = measureSpec input x :=
  (rankLoop_nodup_lookup _ options [] _ rfl (by simp) (by simp [lookupD])).2 x hx

lemma mem_suggestionList (input : List Char) (options : List (List Char))
    (x : List Char) :
    x ∈ suggestionList input options ↔
      x ∈ options ∧ ((measureSpec input x : ℚ) ≤
        max (max ((input.length : ℚ) / 2) ((x.length : ℚ) / 2)) 1) := by
  unfold suggestionList
  rw [List.mem_insertionSort]
  exact mem_keys_optionsByDistance input options x

lemma nodup_suggestionList (input : List Char) (options : List (List Char)) :
    (suggestionList input options).Nodup :=
  (List.perm_insertionSort _ _).nodup_iff.mpr
    (nodup_keys_optionsByDistance input options)

lemma sorted_suggestionList (input : List Char) (options : List (List Char)) :
    List.Sorted (jsLe (optionsByDistance input options))
      (suggestionList input options) :=
  List.sorted_insertionSort _ _

lemma lookupD_suggestionList (input : List Char) (options : List (List Char))
    (x : List Char) (hx : x ∈ suggestionList input options) :
    lookupD (optionsByDistance input options) x = measureSpec input x := by
  apply lookupD_optionsByDistance
  rw [← List.mem_insertionSort (r := jsLe (optionsByDistance input options))]
  exact hx

/-! ### Replaying a sequence of `measure` calls on one engine -/

/-- Runs `measure` on each candidate in turn, discarding the distances
and keeping the (possibly mutated) engine. -/
def measureAll (ld : LexicalDistance) : List (List Char) → LexicalDistance
  | [] => ld
  | c :: cs => measureAll (ld.measure c).2 cs

lemma measureAll_fields (prior : List (List Char)) :
    ∀ ld : LexicalDistance, (measureAll ld prior).input = ld.input ∧
      (measureAll ld prior).inputLowerCase = ld.inputLowerCase := by
  induction prior with
  | nil => exact fun ld => ⟨rfl, rfl⟩
  | cons c cs ih =>
    intro ld
    have hf := measure_fields ld c
    have hr := ih (ld.measure c).2
    exact ⟨hr.1.trans hf.1, hr.2.trans hf.2⟩

/-! ### Minimum-edit facts for the pair `"ca"`, `"abc"` -/

/-- Inversion principle for a single edit, with free endpoints. -/
lemma editStep_inv {s t : List Char} (h : EditStep s t) :
    (∃ pre suf c, s = pre ++ suf ∧ t = pre ++ c :: suf) ∨
    (∃ pre suf c, s = pre ++ c :: suf ∧ t = pre ++ suf) ∨
    (∃ pre suf c d, s = pre ++ c :: suf ∧ t = pre ++ d :: suf) ∨
    (∃ pre suf c d, s = pre ++ c :: d :: suf ∧ t = pre ++ d :: c :: suf) := by
  cases h with
  | ins pre suf c => exact Or.inl ⟨pre, suf, c, rfl, rfl⟩
  | del pre suf c => exact Or.inr (Or.inl ⟨pre, suf, c, rfl, rfl⟩)
  | subst pre suf c d => exact Or.inr (Or.inr (Or.inl ⟨pre, suf, c, d, rfl, rfl⟩))
  | swap pre suf c d => exact Or.inr (Or.inr (Or.inr ⟨pre, suf, c, d, rfl, rfl⟩))

lemma no_editStep_ca_abc : ¬ EditStep ['c', 'a'] ['a', 'b', 'c'] := by
  intro h
  rcases editStep_inv h with ⟨pre, suf, c, h1, h2⟩ | ⟨pre, suf, c, h1, h2⟩ |
    ⟨pre, suf, c, d, h1, h2⟩ | ⟨pre, suf, c, d, h1, h2⟩
  · rcases pre with _ | ⟨x, pre⟩
    · rw [List.nil_append] at h1 h2
      rw [← h1] at h2
      simp at h2
    · rw [List.cons_append] at h1 h2
      injection h1 with hx1 _
      injection h2 with hx2 _
      rw [← hx1] at hx2
      exact absurd hx2 (by decide)
  · have l1 := congrArg List.length h1
    have l2 := congrArg List.length h2
    simp [List.length_append] at l1 l2
    omega
  · have l1 := congrArg List.length h1
    have l2 := congrArg List.length h2
    simp [List.length_append] at l1 l2
    omega
  · have l1 := congrArg List.length h1
    have l2 := congrArg List.length h2
    simp [List.length_append] at l1 l2
    omega

lemma editSeq_two_ca_abc : EditSeq 2 ['c', 'a'] ['a', 'b', 'c'] :=
  ⟨['a', 'c'], EditStep.swap [] [] 'c' 'a',
    ⟨['a', 'b', 'c'], EditStep.ins ['a'] ['c'] 'b', rfl⟩⟩

lemma no_editSeq_one_ca_abc : ¬ EditSeq 1 ['c', 'a'] ['a', 'b', 'c'] := by
  rintro ⟨u, hstep, hu⟩
  have hu' : u = ['a', 'b', 'c'] := hu
  subst hu'
  exact no_editStep_ca_abc hstep

lemma no_editSeq_zero_ca_abc : ¬ EditSeq 0 ['c', 'a'] ['a', 'b', 'c'] := by
  intro h
  have h' : ['c', 'a'] = ['a', 'b', 'c'] := h
  exact absurd h' (by decide)

/-! ### Concrete evaluations of the ranker -/

lemma suggestionList_empty_input : suggestionList [] [[]] = [[]] := by
  have hm : ((LexicalDistance.make ([] : List Char)).measure []).1 = 0 := rfl
  have h1 : optionsByDistance [] [[]] = [([], 0)] := by
    unfold optionsByDistance
    rw [rankLoop_cons]
    have hcond : ((((LexicalDistance.make ([] : List Char)).measure []).1 : ℕ) : ℚ) ≤
        max (max ((([] : List Char).length : ℚ) / 2)
          ((([] : List Char).length : ℚ) / 2)) 1 := by
      rw [hm]
      refine le_trans ?_ (le_max_right _ 1)
      norm_num
    rw [if_pos hcond, rankLoop_nil]
    rw [hm]
    rfl
  unfold suggestionList
  rw [h1]
  simp [List.insertionSort]

lemma suggestionList_empty_options :
    suggestionList ['a', 'b', 'c'] [] = [] := by
  unfold suggestionList optionsByDistance
  rw [rankLoop_nil]
  simp [List.insertionSort]

/-! ### The claims -/

/-- C1: for every input string and candidate list, a candidate string
appears in `suggestionList`'s result iff its measured distance to the
input is at most `max(length(input)/2, length(candidate)/2, 1)` (with
fractional, non-truncating division), and the result is sorted ascending
by that distance with ties ordered by ascending lexical comparison
(modelled as code-point order) of the candidate strings. -/
theorem C1_threshold_filter_and_ordering (input : List Char)
    (options : List (List Char)) :
    (∀ c, c ∈ options →
      (c ∈ suggestionList input options ↔
        ((((LexicalDistance.make input).measure c).1 : ℚ) ≤
          max (max ((input.length : ℚ) / 2) ((c.length : ℚ) / 2)) 1)) ) ∧
    (suggestionList input options).Pairwise (fun x y =>
      ((LexicalDistance.make input).measure x).1 <
          ((LexicalDistance.make input).measure y).1 ∨
        (((LexicalDistance.make input).measure x).1 =
            ((LexicalDistance.make input).measure y).1 ∧ x < y)) := by
  have hm : ∀ c, ((LexicalDistance.make input).measure c).1 =
      measureSpec input c := fun c => measure_eq_measureSpec _ _ rfl
  constructor
  · intro c hc
    rw [hm c]
    constructor
    · intro h
      exact ((mem_suggestionList input options c).mp h).2
    · intro h
      exact (mem_suggestionList input options c).mpr ⟨hc, h⟩
  · have hsorted : (suggestionList input options).Pairwise
        (jsLe (optionsByDistance input options)) :=
      sorted_suggestionList input options
    have hnd : (suggestionList input options).Pairwise (fun x y => x ≠ y) :=
      nodup_suggestionList input options
    refine List.Pairwise.imp_of_mem ?_ (hsorted.and hnd)
    intro x y hx hy hp
    have dx : lookupD (optionsByDistance input options) x = measureSpec input x :=
      lookupD_suggestionList _ _ _ hx
    have dy : lookupD (optionsByDistance input options) y = measureSpec input y :=
      lookupD_suggestionList _ _ _ hy
    rcases hp.1 with hlt | ⟨heq, hle⟩
    · left
      rw [hm x, hm y, ← dx, ← dy]
      exact hlt
    · right
      constructor
      · rw [hm x, hm y, ← dx, ← dy, heq]
      · exact lt_of_le_of_ne hle hp.2

/-- Witness for C1 at input `"cat"`, candidates `["bat", "cap"]`. -/
theorem C1_threshold_filter_and_ordering_witness :
    ((['b','a','t'] ∈ suggestionList ['c','a','t'] [['b','a','t'], ['c','a','p']]) ↔
      ((((LexicalDistance.make ['c','a','t']).measure ['b','a','t']).1 : ℚ) ≤
        max (max (((['c','a','t'] : List Char).length : ℚ) / 2)
          (((['b','a','t'] : List Char).length : ℚ) / 2)) 1)) ∧
    (suggestionList ['c','a','t'] [['b','a','t'], ['c','a','p']]).Pairwise
      (fun x y =>
        ((LexicalDistance.make ['c','a','t']).measure x).1 <
            ((LexicalDistance.make ['c','a','t']).measure y).1 ∨
          (((LexicalDistance.make ['c','a','t']).measure x).1 =
              ((LexicalDistance.make ['c','a','t']).measure y).1 ∧ x < y)) :=
  ⟨(C1_threshold_filter_and_ordering ['c','a','t']
      [['b','a','t'], ['c','a','p']]).1 ['b','a','t'] (by decide),
    (C1_threshold_filter_and_ordering ['c','a','t']
      [['b','a','t'], ['c','a','p']]).2⟩

/-- C2 (amended): for every pair of strings whose lowercase forms differ,
`measure` returns the optimal-string-alignment (restricted
Damerau-Levenshtein) distance between the lowercased strings — the value
of the standard DP recurrence with adjacent transposition — rather than
the unrestricted minimum number of edits, which it can exceed. -/
theorem C2_measure_eq_osa (s t : List Char) (h : toLowerL s ≠ toLowerL t) :
    ((LexicalDistance.make s).measure t).1 = osa (toLowerL t) (toLowerL s) := by
  rw [measure_eq_measureSpec _ _ rfl]
  show measureSpec s t = osa (toLowerL t) (toLowerL s)
  unfold measureSpec
  have hst : ¬(s = t) := fun he => h (by rw [he])
  rw [if_neg hst, if_neg h]

/-- Counterexample to C2 as stated: with engine input `"abc"` and
candidate `"ca"` (lowercase forms differ), `measure` returns 3, but the
minimum number of edits from `"ca"` to `"abc"` is 2 — a transposition
`ca → ac` followed by inserting `b` — because the restricted algorithm
never edits a transposed pair again. -/
theorem C2_counterexample :
    toLowerL ['a','b','c'] ≠ toLowerL ['c','a'] ∧
    ((LexicalDistance.make ['a','b','c']).measure ['c','a']).1 = 3 ∧
    EditSeq 2 ['c','a'] ['a','b','c'] ∧
    ¬ EditSeq 1 ['c','a'] ['a','b','c'] ∧
    ¬ EditSeq 0 ['c','a'] ['a','b','c'] :=
  ⟨by decide, by decide, editSeq_two_ca_abc, no_editSeq_one_ca_abc,
    no_editSeq_zero_ca_abc⟩

/-- Witness for the amended C2 at the counterexample pair. -/
theorem C2_measure_eq_osa_witness :
    toLowerL ['a','b','c'] ≠ toLowerL ['c','a'] ∧
    ((LexicalDistance.make ['a','b','c']).measure ['c','a']).1 =
      osa (toLowerL ['c','a']) (toLowerL ['a','b','c']) :=
  ⟨by decide, C2_measure_eq_osa ['a','b','c'] ['c','a'] (by decide)⟩

/-- C3: for every string `s` and case variant `t` of `s` (equal lowercase
forms, different strings), `measure` with engine bound to `s` returns
exactly 1 for `t`. -/
theorem C3_case_variant_distance_one (s t : List Char)
    (hlow : toLowerL s = toLowerL t) (hne : t ≠ s) :
    ((LexicalDistance.make s).measure t).1 = 1 := by
  rw [measure_eq_measureSpec _ _ rfl]
  show measureSpec s t = 1
  unfold measureSpec
  rw [if_neg (fun he => hne he.symm), if_pos hlow]

/-- Witness for C3 at `"ID"` / `"id"`, where plain Levenshtein distance
is 2. -/
theorem C3_case_variant_distance_one_witness :
    toLowerL ['I','D'] = toLowerL ['i','d'] ∧
    (['i','d'] : List Char) ≠ ['I','D'] ∧
    ((LexicalDistance.make ['I','D']).measure ['i','d']).1 = 1 ∧
    lev ['I','D'] ['i','d'] = 2 :=
  ⟨by decide, by decide,
    C3_case_variant_distance_one ['I','D'] ['i','d'] (by decide) (by decide),
    by decide⟩

/-- C4: the measured distance is a non-negative integer (it lives in `ℕ`)
bounded above by the longer of the two lengths, and the distance of any
string to itself is 0. -/
theorem C4_bounded_and_reflexive (a b : List Char) :
    ((LexicalDistance.make a).measure b).1 ≤ max a.length b.length ∧
    ((LexicalDistance.make a).measure a).1 = 0 := by
  constructor
  · rw [measure_eq_measureSpec _ _ rfl]
    exact measureSpec_le_max a b
  · rw [measure_eq_measureSpec _ _ rfl]
    exact measureSpec_self a

/-- C5: the result contains only strings from the candidate list and no
string twice even when candidates repeat; the distance recorded in the
map for a surviving string equals its measured distance (`measure` is
deterministic, so this is in particular the value written by the last
occurrence). -/
theorem C5_subset_nodup_lastwrite (input : List Char)
    (options : List (List Char)) :
    (∀ x, x ∈ suggestionList input options → x ∈ options) ∧
    (suggestionList input options).Nodup ∧
    (∀ x, x ∈ (optionsByDistance input options).map Prod.fst →
      lookupD (optionsByDistance input options) x =
        ((LexicalDistance.make input).measure x).1) := by
  refine ⟨fun x hx => ((mem_suggestionList input options x).mp hx).1,
    nodup_suggestionList input options, fun x hx => ?_⟩
  rw [lookupD_optionsByDistance input options x hx,
    measure_eq_measureSpec _ _ rfl]
  rfl

/-- Witness for C5 at input `""`, candidates `[""]`. -/
theorem C5_subset_nodup_lastwrite_witness :
    (([] : List Char) ∈ ([[]] : List (List Char))) ∧
    (suggestionList [] [[]]).Nodup :=
  ⟨(C5_subset_nodup_lastwrite [] [[]]).1 []
      (by rw [suggestionList_empty_input]; decide),
    (C5_subset_nodup_lastwrite [] [[]]).2.1⟩

/-- C6: the measured distance between `"ab"` and `"ba"` is exactly 1 (one
adjacent transposition), while plain Levenshtein without transpositions
gives 2. -/
theorem C6_transposition_is_one :
    ((LexicalDistance.make ['a','b']).measure ['b','a']).1 = 1 ∧
    ((LexicalDistance.make ['b','a']).measure ['a','b']).1 = 1 ∧
    lev ['b','a'] ['a','b'] = 2 :=
  ⟨by decide, by decide, by decide⟩

/-- C7: `measure` is symmetric: the distance of `b` measured by an engine
built on `a` equals the distance of `a` measured by an engine built on
`b`. -/
theorem C7_measure_symmetric (a b : List Char) :
    ((LexicalDistance.make a).measure b).1 =
      ((LexicalDistance.make b).measure a).1 := by
  rw [measure_eq_measureSpec _ _ rfl, measure_eq_measureSpec _ _ rfl]
  exact measureSpec_symm a b

/-- C8: a `measure` call's result depends only on the engine's input and
the candidate: after any sequence of earlier `measure` calls on the same
engine (which only overwrite the scratch rows), measuring a candidate
gives the same value as on a freshly constructed engine. -/
theorem C8_result_independent_of_scratch_state (input c : List Char)
    (prior : List (List Char)) :
    ((measureAll (LexicalDistance.make input) prior).measure c).1 =
      ((LexicalDistance.make input).measure c).1 := by
  have hf := measureAll_fields prior (LexicalDistance.make input)
  have h1 := measure_eq_measureSpec (measureAll (LexicalDistance.make input)
    prior) c (by rw [hf.1, hf.2]; rfl)
  rw [h1, hf.1, measure_eq_measureSpec _ _ rfl]

/-- C9: the ranker is total (it is a function in this embedding and
always returns a list); in particular `rank("", [""]) = [""]` and
`rank("abc", []) = []`. -/
theorem C9_total_with_edge_cases :
    suggestionList [] [[]] = [[]] ∧ suggestionList ['a','b','c'] [] = [] :=
  ⟨suggestionList_empty_input, suggestionList_empty_options⟩

/-- C10: `measure` returns 0 iff the candidate is exactly the input
(case-sensitively), and whenever the exact input occurs among the
candidates it is the first element of the returned list. -/
theorem C10_zero_iff_exact_and_input_first (input opt : List Char)
    (options : List (List Char)) :
    (((LexicalDistance.make input).measure opt).1 = 0 ↔ opt = input) ∧
    (input ∈ options → (suggestionList input options).head? = some input) := by
  constructor
  · rw [measure_eq_measureSpec _ _ rfl]
    exact measureSpec_eq_zero input opt
  · intro hin
    have hmem : input ∈ suggestionList input options := by
      rw [mem_suggestionList]
      refine ⟨hin, ?_⟩
      rw [measureSpec_self]
      push_cast
      exact le_trans zero_le_one (le_max_right _ 1)
    rcases hres : suggestionList input options with _ | ⟨y, ys⟩
    · rw [hres] at hmem
      exact absurd hmem (List.not_mem_nil input)
    · rw [List.head?_cons]
      refine congrArg some ?_
      by_contra hne
      have hmem' := hmem
      rw [hres] at hmem'
      rcases List.mem_cons.mp hmem' with heq | htail
      · exact hne heq.symm
      · have hsorted := sorted_suggestionList input options
        rw [hres] at hsorted
        have hrel := List.rel_of_sorted_cons hsorted input htail
        have hy : lookupD (optionsByDistance input options) y =
            measureSpec input y := by
          apply lookupD_suggestionList
          rw [hres]
          exact List.mem_cons_self y ys
        have hinp : lookupD (optionsByDistance input options) input =
            measureSpec input input := lookupD_suggestionList _ _ _ hmem
        rcases hrel with hlt | ⟨heq2, _⟩
        · rw [hy, hinp, measureSpec_self] at hlt
          omega
        · rw [hy, hinp, measureSpec_self] at heq2
          exact hne ((measureSpec_eq_zero input y).mp heq2)

/-- Witness for C10 at input `""`, candidate `""`, candidates `[""]`. -/
theorem C10_zero_iff_exact_and_input_first_witness :
    ((((LexicalDistance.make ([] : List Char)).measure []).1 = 0) ↔
      (([] : List Char) = [])) ∧
    ((suggestionList [] [[]]).head? = some []) :=
  ⟨(C10_zero_iff_exact_and_input_first [] [] [[]]).1,
    (C10_zero_iff_exact_and_input_first [] [] [[]]).2 (by decide)⟩
